import Mathlib

/-!
Verification development for `streamlit_scraper.py`, a contact-information
scraper.  The core pipeline is embedded shallowly:

* the regular-expression scans of `extract_contacts_from_html` are embedded as
  explicit scanners over `List Char`, following Python `re` semantics
  (leftmost match, greedy with backtracking, ASCII word/space classes);
* the `phonenumbers` library (an external dependency, not part of the
  repository) is modelled from the specification;
* the Playwright-driven link collector and page-visiting orchestrator are
  embedded as functions over an abstract browser behaviour (a stream of
  search-result pages, and a per-link visit outcome).
-/

set_option maxHeartbeats 1000000

/-! ## Character classes of the Python regular expressions (ASCII model) -/

/-- Python `\d` (ASCII model): the characters `'0'`–`'9'`. -/
def isDigitCh (c : Char) : Bool := c.isDigit

/-- Python `[A-Za-z]`. -/
def isAlphaCh (c : Char) : Bool := c.isAlpha

/-- Python `\w` (ASCII model): letters, digits and underscore. -/
def isWordCh (c : Char) : Bool := c.isAlphanum || c = '_'

/-- Python `[-\s]` (ASCII model): hyphen or whitespace. -/
def isSepCh (c : Char) : Bool :=
  c = '-' || c = ' ' || c = '\t' || c = '\n' || c = '\r' || c = '\x0b' || c = '\x0c'

/-- The leading digit class `[6-9]` of the phone pattern. -/
def isMobileStart (c : Char) : Bool := c = '6' || c = '7' || c = '8' || c = '9'

/-- Wordness of an optional character; out-of-string counts as non-word. -/
def wordOpt : Option Char → Bool
  | none => false
  | some c => isWordCh c

/-- Python `\b`: a word boundary between the previous and the next character. -/
def boundaryB (prev : Option Char) (next : Option Char) : Bool :=
  wordOpt prev != wordOpt next

/-! ## The phone pattern `\b(?:\+91[-\s]?)?[6-9]\d{9}\b` -/

/-- Match `[6-9]\d{9}` at the head of `l`: ten digits, the first in `6`–`9`.
Returns the matched characters and the remaining input. -/
def tenDigits : List Char → Option (List Char × List Char)
  | [] => none
  | c :: rest =>
      if isMobileStart c ∧ (rest.take 9).all isDigitCh ∧ (rest.take 9).length = 9
      then some (c :: rest.take 9, rest.drop 9)
      else none

/-- The trailing `\b` of the phone pattern: the character after the final digit
(a word character) must be absent or a non-word character. -/
def endBoundaryB : List Char → Bool
  | [] => true
  | c :: _ => !isWordCh c

/-- `[6-9]\d{9}\b` at the head of `l`. -/
def phoneTenEnd (l : List Char) : Option (List Char × List Char) :=
  match tenDigits l with
  | some (m, rest) => if endBoundaryB rest then some (m, rest) else none
  | none => none

/-- One attempt of `\b(?:\+91[-\s]?)?[6-9]\d{9}\b` at the current position,
with `prev` the character before the position.  Alternatives are tried in
Python's backtracking order: the optional group with its optional separator
first, then the group without separator, then no group.  When the group
`\+91` has been consumed and the tail fails, the bare alternative would
restart at `'+'`, which is not in `[6-9]`, so it necessarily fails and is
not re-tried. -/
def matchPhoneAt (prev : Option Char) (l : List Char) : Option (List Char × List Char) :=
  if boundaryB prev l.head? then
    if l.take 3 = ['+', '9', '1'] then
      match (l.drop 3).head? with
      | some c =>
          if isSepCh c then
            match phoneTenEnd (l.drop 4) with
            | some (m, rest) => some ('+' :: '9' :: '1' :: c :: m, rest)
            | none =>
                match phoneTenEnd (l.drop 3) with
                | some (m, rest) => some ('+' :: '9' :: '1' :: m, rest)
                | none => none
          else
            match phoneTenEnd (l.drop 3) with
            | some (m, rest) => some ('+' :: '9' :: '1' :: m, rest)
            | none => none
      | none => none
    else
      phoneTenEnd l
  else none

theorem tenDigits_rest_lt {l m rest : List Char} (h : tenDigits l = some (m, rest)) :
    rest.length < l.length := by
  cases l with
  | nil => simp [tenDigits] at h
  | cons a as =>
      simp only [tenDigits] at h
      split at h
      · simp only [Option.some.injEq, Prod.mk.injEq] at h
        obtain ⟨-, hr⟩ := h
        subst hr
        simp only [List.length_drop, List.length_cons]
        omega
      · simp at h

theorem phoneTenEnd_rest_lt {l m rest : List Char} (h : phoneTenEnd l = some (m, rest)) :
    rest.length < l.length := by
  unfold phoneTenEnd at h
  split at h
  · rename_i m' rest' ht
    split at h
    · simp only [Option.some.injEq, Prod.mk.injEq] at h
      obtain ⟨-, hr⟩ := h
      subst hr
      exact tenDigits_rest_lt ht
    · simp at h
  · simp at h

theorem matchPhoneAt_rest_lt {prev : Option Char} {l m rest : List Char}
    (h : matchPhoneAt prev l = some (m, rest)) : rest.length < l.length := by
  have hd3 : (l.drop 3).length ≤ l.length := by
    simp only [List.length_drop]; omega
  have hd4 : (l.drop 4).length ≤ l.length := by
    simp only [List.length_drop]; omega
  unfold matchPhoneAt at h
  split at h
  · split at h
    · split at h
      · rename_i c hc
        split at h
        · split at h
          · rename_i m' rest' h4
            simp only [Option.some.injEq, Prod.mk.injEq] at h
            obtain ⟨-, hr⟩ := h
            subst hr
            exact lt_of_lt_of_le (phoneTenEnd_rest_lt h4) hd4
          · split at h
            · rename_i m' rest' h3
              simp only [Option.some.injEq, Prod.mk.injEq] at h
              obtain ⟨-, hr⟩ := h
              subst hr
              exact lt_of_lt_of_le (phoneTenEnd_rest_lt h3) hd3
            · simp at h
        · split at h
          · rename_i m' rest' h3
            simp only [Option.some.injEq, Prod.mk.injEq] at h
            obtain ⟨-, hr⟩ := h
            subst hr
            exact lt_of_lt_of_le (phoneTenEnd_rest_lt h3) hd3
          · simp at h
      · simp at h
    · exact phoneTenEnd_rest_lt h
  · simp at h

/-- The scan of `re.findall` for the phone pattern: try a match at every
position, left to right; on success continue after the match (non-overlapping
matches), on failure advance one character.  `prev` is the character before
the current position (`none` at the start of the string). -/
def findPhonesAux (prev : Option Char) (l : List Char) : List (List Char) :=
  match h : matchPhoneAt prev l with
  | some (m, rest) => m :: findPhonesAux (some (m.getLastD '0')) rest
  | none =>
      match l with
      | [] => []
      | c :: r => findPhonesAux (some c) r
termination_by l.length
decreasing_by
  · exact matchPhoneAt_rest_lt h
  · simp

/-- `re.findall(r"\b(?:\+91[-\s]?)?[6-9]\d{9}\b", html)`. -/
def findPhones (l : List Char) : List (List Char) := findPhonesAux none l

/-! ## The email pattern `[A-Za-z0-9._%+-]+@[A-Za-z0-9.-]+\.[A-Za-z]{2,}` -/

/-- The local-part class `[A-Za-z0-9._%+-]`. -/
def localCh (c : Char) : Bool :=
  isAlphaCh c || isDigitCh c || c = '.' || c = '_' || c = '%' || c = '+' || c = '-'

/-- The domain class `[A-Za-z0-9.-]`. -/
def domainCh (c : Char) : Bool := isAlphaCh c || isDigitCh c || c = '.' || c = '-'

/-- Backtracking of `\.[A-Za-z]{2,}` inside the maximal domain-character run:
the greedy `[A-Za-z0-9.-]+` tries the longest domain part first, so the
rightmost dot followed by at least two letters wins.  Returns the domain part
before the winning dot, the greedy letter run after it, and the leftover of
the run after those letters. -/
def findDotSplit : List Char → Option (List Char × List Char × List Char)
  | [] => none
  | c :: rest =>
      match findDotSplit rest with
      | some (d, t, lv) => some (c :: d, t, lv)
      | none =>
          if c = '.' then
            if 2 ≤ (rest.takeWhile isAlphaCh).length then
              some ([], rest.takeWhile isAlphaCh, rest.dropWhile isAlphaCh)
            else none
          else none

theorem findDotSplit_spec {D d t lv : List Char}
    (h : findDotSplit D = some (d, t, lv)) :
    D = d ++ '.' :: t ++ lv ∧ t.all isAlphaCh = true ∧ 2 ≤ t.length := by
  induction D generalizing d t lv with
  | nil => simp [findDotSplit] at h
  | cons c rest ih =>
      unfold findDotSplit at h
      split at h
      · rename_i d' t' lv' hrec
        simp only [Option.some.injEq, Prod.mk.injEq] at h
        obtain ⟨hd, ht, hlv⟩ := h
        subst hd; subst ht; subst hlv
        obtain ⟨h1, h2, h3⟩ := ih hrec
        exact ⟨by simp [h1], h2, h3⟩
      · split at h
        · rename_i hdot
          split at h
          · rename_i hlen
            simp only [Option.some.injEq, Prod.mk.injEq] at h
            obtain ⟨hd, ht, hlv⟩ := h
            subst hd; subst ht; subst hlv
            subst hdot
            refine ⟨?_, List.all_takeWhile, ‹_›⟩
            simp [List.takeWhile_append_dropWhile]
          · simp at h
        · simp at h

/-- One attempt of the email pattern at the current position.  The greedy
local part must end exactly at an `'@'` (no shorter run can, since `'@'` is
not a local character); the greedy domain part backtracks inside the maximal
domain run to place `\.[A-Za-z]{2,}`, rightmost dot first; a split leaving an
empty domain part is rejected (`+` needs at least one character). -/
def matchEmailAt (l : List Char) : Option (List Char × List Char) :=
  if l.takeWhile localCh = [] then none
  else
    match l.dropWhile localCh with
    | '@' :: r2 =>
        match findDotSplit (r2.takeWhile domainCh) with
        | some (d, t, lv) =>
            if d = [] then none
            else some (l.takeWhile localCh ++ '@' :: d ++ '.' :: t,
                       lv ++ r2.dropWhile domainCh)
        | none => none
    | _ => none

theorem matchEmailAt_rest_lt {l m rest : List Char}
    (h : matchEmailAt l = some (m, rest)) : rest.length < l.length := by
  unfold matchEmailAt at h
  split at h
  · simp at h
  · split at h
    · rename_i r2 hdw
      split at h
      · rename_i d t lv hfd
        split at h
        · simp at h
        · simp only [Option.some.injEq, Prod.mk.injEq] at h
          obtain ⟨-, hr⟩ := h
          subst hr
          obtain ⟨hD, -, hlen⟩ := findDotSplit_spec hfd
          have h1 : (l.takeWhile localCh).length + (l.dropWhile localCh).length = l.length := by
            rw [← List.length_append, List.takeWhile_append_dropWhile]
          have h2 : (r2.takeWhile domainCh).length + (r2.dropWhile domainCh).length
              = r2.length := by
            rw [← List.length_append, List.takeWhile_append_dropWhile]
          have h3 : (l.dropWhile localCh).length = r2.length + 1 := by
            rw [hdw]; simp
          have h4 : (r2.takeWhile domainCh).length = d.length + 1 + t.length + lv.length := by
            rw [hD]; simp; omega
          simp only [List.length_append]
          omega
      · simp at h
    · simp at h

/-- The scan of `re.findall` for the email pattern: leftmost match wins,
matches do not overlap; on failure advance one character. -/
def findEmailsAux (l : List Char) : List (List Char) :=
  match h : matchEmailAt l with
  | some (m, rest) => m :: findEmailsAux rest
  | none =>
      match l with
      | [] => []
      | _ :: r => findEmailsAux r
termination_by l.length
decreasing_by
  · exact matchEmailAt_rest_lt h
  · simp

/-! ## Model of the `phonenumbers` library and `validate_indian_number` -/

/-- A parsed phone number of the `phonenumbers` model: a country calling code
and a national significant number. -/
structure ParsedNumber where
  countryCode : List Char
  national : List Char
deriving DecidableEq

/-- Modelled from the spec: `phonenumbers.parse(s, "IN")` of the external
`phonenumbers` package, which is not part of this repository.  Parsing
rejects malformed input, non-numeric content and wrong length; a string with
a leading `'+'` carries its own country calling code (resolved here as the
two leading digits, which covers the `"+91"` candidates this pipeline
builds); anything else is taken as a national number of the default region
`"IN"`. -/
def phonenumbersParse (cs : List Char) : Except Unit ParsedNumber :=
  match cs with
  | '+' :: r =>
      if r.all isDigitCh = true ∧ 4 ≤ r.length ∧ r.length ≤ 17 then
        Except.ok ⟨r.take 2, r.drop 2⟩
      else Except.error ()
  | _ =>
      if cs.all isDigitCh = true ∧ 2 ≤ cs.length ∧ cs.length ≤ 17 then
        Except.ok ⟨['9', '1'], cs⟩
      else Except.error ()

/-- Modelled from the spec: `phonenumbers.is_valid_number`.  For the Indian
country code 91 a number is structurally valid when its national significant
number is a ten-digit mobile number starting in 6–9 (the numbers within the
scope of this pipeline); other country codes are not valid in this model. -/
def phonenumbersIsValid (n : ParsedNumber) : Bool :=
  if n.countryCode = ['9', '1'] ∧ n.national.length = 10 then
    match n.national.head? with
    | some c => isMobileStart c
    | none => false
  else false

/-- Modelled from the spec: `phonenumbers.region_code_for_number`; country
calling code 91 resolves to region `"IN"`. -/
def regionCodeForNumber (n : ParsedNumber) : String :=
  if n.countryCode = ['9', '1'] then "IN" else "ZZ"

/-- `validate_indian_number` (`streamlit_scraper.py`, lines 36–41): parse
with default region `"IN"`; the `try`/`except` turns any parse failure into
`False`; otherwise the number must be structurally valid and its region must
resolve to `"IN"`. -/
def validate_indian_number (s : String) : Bool :=
  match phonenumbersParse s.toList with
  | Except.error _ => false
  | Except.ok n => phonenumbersIsValid n && decide (regionCodeForNumber n = "IN")

/-- The body of `validate_indian_number`'s `try` block with the possible
parse exception made explicit in the exception monad: a parse failure
propagates out of the body. -/
def validateTryBody (s : String) : Except Unit Bool :=
  match phonenumbersParse s.toList with
  | Except.error e => Except.error e
  | Except.ok n => Except.ok (phonenumbersIsValid n && decide (regionCodeForNumber n = "IN"))

/-! ## `extract_contacts_from_html` -/

/-- `re.sub(r"\D", "", ph)`: strip all non-digit characters. -/
def stripNonDigits (l : List Char) : List Char := l.filter isDigitCh

/-- The normalization step of `extract_contacts_from_html`: if the digit
string does not already start with `"91"` and is exactly ten digits, prepend
`"91"`; then prefix `'+'`. -/
def normalizePhone (ph : List Char) : List Char :=
  let digits := stripNonDigits ph
  let digits2 :=
    if ¬ digits.take 2 = ['9', '1'] ∧ digits.length = 10 then '9' :: '1' :: digits
    else digits
  '+' :: digits2

/-- `extract_contacts_from_html` (`streamlit_scraper.py`, lines 44–57):
emails are the matches of the email pattern, deduplicated with set semantics;
phones are the raw matches of the phone pattern, deduplicated with set
semantics, normalized, and kept only if `validate_indian_number` accepts the
candidate.  Python's set iteration order is unspecified; `List.dedup` is the
order this model fixes. -/
def extract_contacts_from_html (html : String) : List String × List String :=
  let emails := ((findEmailsAux html.toList).dedup).map List.asString
  let rawPhones := findPhones html.toList
  let cleanPhones := (rawPhones.dedup).foldl
    (fun acc ph =>
      let candidate := normalizePhone ph
      if validate_indian_number candidate.asString then acc ++ [candidate.asString]
      else acc) []
  (emails, cleanPhones)

/-- The phone loop of `extract_contacts_from_html` in the exception monad:
each candidate is validated by the `try`-block body, whose parse exception is
caught on the spot (`except: return False`), so the loop itself cannot
raise. -/
def cleanPhonesE : List (List Char) → List String → Except Unit (List String)
  | [], acc => Except.ok acc
  | ph :: rest, acc =>
      let candidate := normalizePhone ph
      let ok := match validateTryBody candidate.asString with
                | Except.error _ => false
                | Except.ok b => b
      cleanPhonesE rest (if ok then acc ++ [candidate.asString] else acc)

/-- `extract_contacts_from_html` with exception semantics made explicit: the
only operation of the function that can raise is the phone parse inside
`validate_indian_number`, whose exception that function catches itself; the
regular-expression scans are total. -/
def extractContactsE (html : String) : Except Unit (List String × List String) :=
  match cleanPhonesE ((findPhones html.toList).dedup) [] with
  | Except.error e => Except.error e
  | Except.ok cleanPhones =>
      Except.ok (((findEmailsAux html.toList).dedup).map List.asString, cleanPhones)

/-! ## `build_query` -/

/-- The configured region-hint keywords (`INDIAN_KEYWORDS`). -/
def INDIAN_KEYWORDS : List String :=
  ["India", "Mumbai", "Delhi", "Bangalore", "Hyderabad", "Chennai",
   "Kolkata", "Ahmedabad", "Pune", "Jaipur", "Surat", "Lucknow"]

/-- `build_query` (`streamlit_scraper.py`, lines 60–65). -/
def build_query (keyword : String) (selected_domains : List String) : String :=
  let india_hint := String.intercalate " OR " (INDIAN_KEYWORDS.map (fun k => "\"" ++ k ++ "\""))
  let contact_hint :=
    "(intext:\"email\" OR intext:\"@\" OR intext:\"gmail.com\" OR intext:\"yahoo.com\" OR intext:\"outlook.com\" OR intext:\"contact\")"
  let phone_hint := "(intext:\"phone\" OR intext:\"mobile\" OR intext:\"WhatsApp\" OR intext:\"call\")"
  let domains := String.intercalate " OR " (selected_domains.map (fun d => "site:" ++ d))
  "(" ++ domains ++ ") \"" ++ keyword ++ "\" (" ++ india_hint ++ ") " ++
    contact_hint ++ " " ++ phone_hint

/-- Python's substring test `pat in s`, on the underlying character lists. -/
def isSubstring (pat : List Char) : List Char → Bool
  | [] => pat.isEmpty
  | c :: r => pat.isPrefixOf (c :: r) || isSubstring pat r

/-- `pat in s` for strings. -/
def strContains (s pat : String) : Bool := isSubstring pat.toList s.toList

/-! ## The link collector (`streamlit_scraper.py`, lines 87–102)

The browser collaborator is abstracted as a stream of search-result pages:
page `j` yields the `href` attributes resolved from its `a h3` result anchors
(`none` when `get_attribute` returns no value) and whether an `a#pnnext`
control exists on it.  Clicking next moves from page `j` to page `j + 1`. -/

/-- One search-result page as the collector observes it. -/
structure GPage where
  results : List (Option String)
  hasNext : Bool

/-- The inner `for r in results` loop: append an `href` if it is truthy,
contains one of the selected domain substrings and is not yet collected;
stop mid-page as soon as `max_results` is reached. -/
def processResults (results : List (Option String)) (doms : List String)
    (maxr : Nat) (links : List String) : List String :=
  match results with
  | [] => links
  | none :: rs => processResults rs doms maxr links
  | some h :: rs =>
      if ¬ h = "" ∧ (doms.any fun d => strContains h d) = true ∧ h ∉ links then
        if maxr ≤ links.length + 1 then links ++ [h]
        else processResults rs doms maxr (links ++ [h])
      else processResults rs doms maxr links

/-- The pagination loop (`while len(links) < max_results`), with an explicit
fuel bound on the number of result pages inspected; `none` means the fuel ran
out before the loop left on its own. -/
def collectLoop (pages : Nat → GPage) (doms : List String) (maxr : Nat) :
    Nat → Nat → List String → Option (List String)
  | 0, _, _ => none
  | fuel + 1, j, links =>
      if links.length < maxr then
        let links2 := processResults (pages j).results doms maxr links
        if (pages j).hasNext = false ∨ maxr ≤ links2.length then some links2
        else collectLoop pages doms maxr fuel (j + 1) links2
      else some links

/-- The collector entry point: start on the first results page with no links
collected. -/
def collectLinks (pages : Nat → GPage) (doms : List String) (maxr fuel : Nat) :
    Option (List String) :=
  collectLoop pages doms maxr fuel 0 []

/-! ## The page-visiting orchestrator (`streamlit_scraper.py`, lines 105–125)

The per-link browser interaction is abstracted as an outcome: at which of the
`try`-block steps (`new_page`, `goto`, `wait_for_timeout`, `content`) the
first exception is raised, or the captured markup on success.  `close` is
only reached after a successful `content` and is taken to succeed. -/

/-- Outcome of visiting one link. -/
inductive VisitResult where
  | failNewPage
  | failGoto
  | failWait
  | failContent
  | ok (html : String)
deriving DecidableEq

/-- Does the visit reach `new_page.close()` (and hence the row append)? -/
def VisitResult.isOk : VisitResult → Bool
  | .ok _ => true
  | _ => false

/-- Model of `urllib.parse.urlparse(link).netloc`: the text between the first
`"//"` and the following `'/'`, `'?'` or `'#'`; empty when the URL has no
`"//"`. -/
def afterDoubleSlash : List Char → Option (List Char)
  | '/' :: '/' :: r => some r
  | _ :: r => afterDoubleSlash r
  | [] => none

/-- `urlparse(link).netloc`. -/
def netloc (url : String) : String :=
  match afterDoubleSlash url.toList with
  | some r => (r.takeWhile fun c => ¬ c = '/' ∧ ¬ c = '?' ∧ ¬ c = '#').asString
  | none => ""

/-- The row dict appended for a successfully visited link.  The Python dict
joins the contact lists with `", "` for display; the record keeps the
sequences themselves (spec section 3) together with the joined strings. -/
structure ExtractionRecord where
  keyword : String
  url : String
  domain : String
  emails : List String
  phones : List String
deriving DecidableEq

/-- Build the record for one successfully captured page. -/
def mkRecord (keyword url html : String) : ExtractionRecord :=
  { keyword := keyword
    url := url
    domain := netloc url
    emails := (extract_contacts_from_html html).1
    phones := (extract_contacts_from_html html).2 }

/-- Observable state of one orchestrator run: the accumulated rows, which
link indices had a page context opened, which had it closed, and the
arguments of the `progress.progress(i / len(links))` calls, kept as the pair
(links processed, total links) whose quotient is the reported fraction. -/
structure OrchState where
  rows : List ExtractionRecord
  opened : List Nat
  closed : List Nat
  progressCalls : List (Nat × Nat)
deriving DecidableEq

/-- Effect of the `try`/`except` body for link number `i` (0-based; the
Python `enumerate(links, 1)` index is `i + 1`).  An exception anywhere in the
body skips the rest of the body — in particular `new_page.close()` and the
progress report — and `continue`s with the next link. -/
def orchStep (keyword : String) (total : Nat) (st : OrchState) (i : Nat)
    (link : String) (v : VisitResult) : OrchState :=
  match v with
  | .failNewPage => st
  | .failGoto => { st with opened := st.opened ++ [i] }
  | .failWait => { st with opened := st.opened ++ [i] }
  | .failContent => { st with opened := st.opened ++ [i] }
  | .ok html =>
      { rows := st.rows ++ [mkRecord keyword link html]
        opened := st.opened ++ [i]
        closed := st.closed ++ [i]
        progressCalls := st.progressCalls ++ [(i + 1, total)] }

/-- The `for i, link in enumerate(links, 1)` loop. -/
def orchLoop (keyword : String) (visit : Nat → VisitResult) (total : Nat) :
    List String → Nat → OrchState → OrchState
  | [], _, st => st
  | link :: rest, i, st =>
      orchLoop keyword visit total rest (i + 1) (orchStep keyword total st i link (visit i))

/-- The page-visiting phase of `scrape_social_media_async`, run on the
collected links with a given per-link visit behaviour. -/
def scrape_social_media_visit (keyword : String) (links : List String)
    (visit : Nat → VisitResult) : OrchState :=
  orchLoop keyword visit links.length links 0 ⟨[], [], [], []⟩

/-! ## Scanning lemmas for the phone pattern -/

theorem findPhonesAux_pos {prev : Option Char} {l m rest : List Char}
    (h : matchPhoneAt prev l = some (m, rest)) :
    findPhonesAux prev l = m :: findPhonesAux (some (m.getLastD '0')) rest := by
  conv_lhs => rw [findPhonesAux.eq_def]
  split
  · rename_i m' rest' h'
    rw [h'] at h
    simp only [Option.some.injEq, Prod.mk.injEq] at h
    obtain ⟨hm, hr⟩ := h
    subst hm; subst hr
    rfl
  · rename_i h'
    rw [h'] at h
    simp at h

theorem findPhonesAux_neg {prev : Option Char} {c : Char} {r : List Char}
    (h : matchPhoneAt prev (c :: r) = none) :
    findPhonesAux prev (c :: r) = findPhonesAux (some c) r := by
  conv_lhs => rw [findPhonesAux.eq_def]
  split
  · rename_i m' rest' h'
    rw [h'] at h
    simp at h
  · rfl

theorem findPhonesAux_nil (prev : Option Char) : findPhonesAux prev [] = [] := by
  conv_lhs => rw [findPhonesAux.eq_def]
  split
  · rename_i m' rest' h'
    exact absurd h' (by simp [matchPhoneAt, phoneTenEnd, tenDigits])
  · rfl

theorem isDigitCh_of_mobile {c : Char} (h : isMobileStart c = true) : isDigitCh c = true := by
  simp only [isMobileStart, Bool.or_eq_true, decide_eq_true_eq] at h
  rcases h with ((h | h) | h) | h <;> subst h <;> decide

theorem mobile_ne_plus {c : Char} (h : isMobileStart c = true) : ¬ c = '+' := by
  simp only [isMobileStart, Bool.or_eq_true, decide_eq_true_eq] at h
  rcases h with ((h | h) | h) | h <;> subst h <;> decide

theorem isWordCh_of_digit {c : Char} (h : isDigitCh c = true) : isWordCh c = true := by
  simp only [isDigitCh] at h
  simp [isWordCh, Char.isAlphanum, h]

/-- A failed attempt, assembled: when the input does not start with `"+91"`
and the bare ten-digit branch fails, the whole attempt fails. -/
theorem matchPhoneAt_no_prefix {prev : Option Char} {l : List Char}
    (h3 : ¬ l.take 3 = ['+', '9', '1']) (hp : phoneTenEnd l = none) :
    matchPhoneAt prev l = none := by
  unfold matchPhoneAt
  rw [if_neg h3, hp]
  exact ite_self none

/-- The pattern cannot fire at a `'+'` that does not follow a word character:
the leading `\b` fails. -/
theorem matchPhoneAt_plus_noWord {prev : Option Char} {r : List Char}
    (h : wordOpt prev = false) : matchPhoneAt prev ('+' :: r) = none := by
  have hb : boundaryB prev (some '+') = false := by
    simp only [boundaryB, h]
    decide
  have hcond : ¬ boundaryB prev (('+' :: r).head?) = true := by
    simp only [List.head?_cons, hb]
    simp
  unfold matchPhoneAt
  rw [if_neg hcond]

/-- The pattern cannot fire at a head character that is neither `'+'` nor a
digit in `6`–`9`. -/
theorem matchPhoneAt_none_of_head {prev : Option Char} {c : Char} {r : List Char}
    (h1 : isMobileStart c = false) (h2 : ¬ c = '+') :
    matchPhoneAt prev (c :: r) = none := by
  refine matchPhoneAt_no_prefix ?_ ?_
  · intro hcon
    simp only [List.take_succ_cons, List.cons.injEq] at hcon
    exact h2 hcon.1
  · simp [phoneTenEnd, tenDigits, h1]

/-- The pattern cannot fire at `"91"` followed by a non-digit: neither the
prefix branch (no `'+'`) nor the bare branch (`\d{9}` broken) survives. -/
theorem matchPhoneAt_91_junk {prev : Option Char} {x : Char} {r : List Char}
    (hx : isDigitCh x = false) :
    matchPhoneAt prev ('9' :: '1' :: x :: r) = none := by
  refine matchPhoneAt_no_prefix ?_ ?_
  · simp only [List.take_succ_cons, List.take_zero, List.cons.injEq]
    intro hcon
    exact absurd hcon.1 (by decide)
  · simp [phoneTenEnd, tenDigits, hx, show isDigitCh '1' = true from by decide]

theorem tenDigits_exact {c : Char} {r s : List Char}
    (hc : isMobileStart c = true) (hlen : r.length = 9) (hall : r.all isDigitCh = true) :
    tenDigits ((c :: r) ++ s) = some (c :: r, s) := by
  have htake9 : (r ++ s).take 9 = r := List.take_left' hlen
  have hdrop9 : (r ++ s).drop 9 = s := List.drop_left' hlen
  rw [List.cons_append]
  simp only [tenDigits]
  rw [htake9, hdrop9, if_pos ⟨hc, hall, hlen⟩]

/-- A ten-digit mobile number at a non-word position followed by a closing
boundary is matched bare, exactly as itself. -/
theorem matchPhoneAt_exact {prev : Option Char} {c : Char} {r s : List Char}
    (hprev : wordOpt prev = false) (hc : isMobileStart c = true)
    (hlen : r.length = 9) (hall : r.all isDigitCh = true)
    (hend : endBoundaryB s = true) :
    matchPhoneAt prev ((c :: r) ++ s) = some (c :: r, s) := by
  have hb : boundaryB prev (((c :: r) ++ s).head?) = true := by
    have hw : isWordCh c = true := isWordCh_of_digit (isDigitCh_of_mobile hc)
    simp only [List.cons_append, List.head?_cons, boundaryB, hprev]
    simp [wordOpt, hw]
  have ht3 : ¬ ((c :: r) ++ s).take 3 = ['+', '9', '1'] := by
    intro hcon
    simp only [List.cons_append, List.take_succ_cons, List.cons.injEq] at hcon
    exact mobile_ne_plus hc hcon.1
  have hten : tenDigits (c :: (r ++ s)) = some (c :: r, s) := by
    rw [← List.cons_append]
    exact tenDigits_exact hc hlen hall
  have hp : phoneTenEnd ((c :: r) ++ s) = some (c :: r, s) := by
    rw [List.cons_append]
    simp [phoneTenEnd, hten, hend]
  unfold matchPhoneAt
  rw [if_pos hb, if_neg ht3]
  exact hp

/-- A bare ten-digit mobile number at a non-word position, ending the input,
is matched exactly once. -/
theorem scan_bare {prev : Option Char} {c : Char} {r : List Char}
    (hprev : wordOpt prev = false) (hc : isMobileStart c = true)
    (hlen : r.length = 9) (hall : r.all isDigitCh = true) :
    findPhonesAux prev (c :: r) = [c :: r] := by
  have hm : matchPhoneAt prev (c :: r) = some (c :: r, []) := by
    have h := matchPhoneAt_exact (s := []) hprev hc hlen hall rfl
    rwa [List.append_nil] at h
  rw [findPhonesAux_pos hm, findPhonesAux_nil]

/-- Scanning `"+91 "` followed by the bare number from a non-word position:
the `\b` before `'+'` fails, the `"91 "` is skipped, the bare number matches. -/
theorem scan_plus91_sp {prev : Option Char} {c : Char} {r : List Char}
    (hprev : wordOpt prev = false) (hc : isMobileStart c = true)
    (hlen : r.length = 9) (hall : r.all isDigitCh = true) :
    findPhonesAux prev ('+' :: '9' :: '1' :: ' ' :: c :: r) = [c :: r] := by
  rw [findPhonesAux_neg (matchPhoneAt_plus_noWord hprev)]
  rw [findPhonesAux_neg (matchPhoneAt_91_junk (by decide))]
  rw [findPhonesAux_neg (matchPhoneAt_none_of_head (by decide) (by decide))]
  rw [findPhonesAux_neg (matchPhoneAt_none_of_head (by decide) (by decide))]
  exact scan_bare (by decide) hc hlen hall

/-- Scanning `"91-"` followed by the bare number: the `"91-"` is skipped,
the bare number matches. -/
theorem scan_91dash {prev : Option Char} {c : Char} {r : List Char}
    (hc : isMobileStart c = true)
    (hlen : r.length = 9) (hall : r.all isDigitCh = true) :
    findPhonesAux prev ('9' :: '1' :: '-' :: c :: r) = [c :: r] := by
  rw [findPhonesAux_neg (matchPhoneAt_91_junk (by decide))]
  rw [findPhonesAux_neg (matchPhoneAt_none_of_head (by decide) (by decide))]
  rw [findPhonesAux_neg (matchPhoneAt_none_of_head (by decide) (by decide))]
  exact scan_bare (by decide) hc hlen hall

/-- Scanning `" +91 "` followed by the bare number, from any position. -/
theorem scan_sp_plus91_sp {prev : Option Char} {c : Char} {r : List Char}
    (hc : isMobileStart c = true)
    (hlen : r.length = 9) (hall : r.all isDigitCh = true) :
    findPhonesAux prev (' ' :: '+' :: '9' :: '1' :: ' ' :: c :: r) = [c :: r] := by
  rw [findPhonesAux_neg (matchPhoneAt_none_of_head (by decide) (by decide))]
  exact scan_plus91_sp (by decide) hc hlen hall

/-- The number, a space, then `"+91 "` and the number again: two raw matches,
both of them the bare digit run. -/
theorem scan_double {c : Char} {r : List Char}
    (hc : isMobileStart c = true)
    (hlen : r.length = 9) (hall : r.all isDigitCh = true) :
    findPhonesAux none ((c :: r) ++ (' ' :: '+' :: '9' :: '1' :: ' ' :: c :: r))
      = [c :: r, c :: r] := by
  have hm := @matchPhoneAt_exact none c r
      (' ' :: '+' :: '9' :: '1' :: ' ' :: c :: r) rfl hc hlen hall rfl
  rw [findPhonesAux_pos hm]
  rw [scan_sp_plus91_sp hc hlen hall]

/-! ## Characterizations of the extraction pipeline -/

theorem phones_foldl_eq (l : List (List Char)) (acc : List String) :
    l.foldl (fun acc ph =>
      let candidate := normalizePhone ph
      if validate_indian_number candidate.asString then acc ++ [candidate.asString]
      else acc) acc
    = acc ++ l.filterMap (fun ph =>
        if validate_indian_number (normalizePhone ph).asString
        then some (normalizePhone ph).asString else none) := by
  induction l generalizing acc with
  | nil => simp
  | cons a as ih =>
      cases hv : validate_indian_number (normalizePhone a).asString
      · simp [hv, ih]
      · simp [hv, ih]

/-- The phone side of `extract_contacts_from_html`, declaratively: deduplicate
the raw matches, normalize each, keep the ones the validator accepts. -/
theorem extract_phones_eq (html : String) :
    (extract_contacts_from_html html).2 =
      ((findPhones html.toList).dedup).filterMap (fun ph =>
        if validate_indian_number (normalizePhone ph).asString
        then some (normalizePhone ph).asString else none) := by
  unfold extract_contacts_from_html
  simp only [phones_foldl_eq, List.nil_append]

/-- The email side of `extract_contacts_from_html`, declaratively. -/
theorem extract_emails_eq (html : String) :
    (extract_contacts_from_html html).1 =
      ((findEmailsAux html.toList).dedup).map List.asString := by
  unfold extract_contacts_from_html
  rfl

theorem normalize_bare {c : Char} {r : List Char}
    (hc : isMobileStart c = true) (hlen : r.length = 9) (hall : r.all isDigitCh = true)
    (h91 : ¬ (c :: r).take 2 = ['9', '1']) :
    normalizePhone (c :: r) = '+' :: '9' :: '1' :: c :: r := by
  unfold normalizePhone stripNonDigits
  have hfil : (c :: r).filter isDigitCh = c :: r := by
    apply List.filter_eq_self.mpr
    intro a ha
    rcases List.mem_cons.mp ha with h | h
    · subst h; exact isDigitCh_of_mobile hc
    · exact List.all_eq_true.mp hall a h
  rw [hfil]
  show ('+' :: (if ¬ (c :: r).take 2 = ['9', '1'] ∧ (c :: r).length = 10
      then '9' :: '1' :: c :: r else c :: r)) = '+' :: '9' :: '1' :: c :: r
  rw [if_pos ⟨h91, by simp [hlen]⟩]

theorem validate_candidate {c : Char} {r : List Char}
    (hc : isMobileStart c = true) (hlen : r.length = 9) (hall : r.all isDigitCh = true) :
    validate_indian_number (('+' :: '9' :: '1' :: c :: r).asString) = true := by
  have htl : (('+' :: '9' :: '1' :: c :: r).asString).toList = '+' :: '9' :: '1' :: c :: r := rfl
  unfold validate_indian_number
  rw [htl]
  have hdig : ('9' :: '1' :: c :: r).all isDigitCh = true := by
    simp [List.all_cons, isDigitCh_of_mobile hc, hall,
      show isDigitCh '9' = true from by decide, show isDigitCh '1' = true from by decide]
  have hlen12 : ('9' :: '1' :: c :: r).length = 12 := by simp [hlen]
  have hparse : phonenumbersParse ('+' :: '9' :: '1' :: c :: r)
      = Except.ok ⟨['9', '1'], c :: r⟩ := by
    show (if ('9' :: '1' :: c :: r).all isDigitCh = true ∧
            4 ≤ ('9' :: '1' :: c :: r).length ∧ ('9' :: '1' :: c :: r).length ≤ 17
          then Except.ok (⟨('9' :: '1' :: c :: r).take 2, ('9' :: '1' :: c :: r).drop 2⟩
            : ParsedNumber)
          else Except.error ()) = Except.ok ⟨['9', '1'], c :: r⟩
    rw [if_pos ⟨hdig, by rw [hlen12]; omega, by rw [hlen12]; omega⟩]
    rfl
  rw [hparse]
  show (phonenumbersIsValid ⟨['9', '1'], c :: r⟩ &&
      decide (regionCodeForNumber ⟨['9', '1'], c :: r⟩ = "IN")) = true
  have hvalid : phonenumbersIsValid ⟨['9', '1'], c :: r⟩ = true := by
    unfold phonenumbersIsValid
    rw [if_pos ⟨rfl, by simp [hlen]⟩]
    simp only [List.head?_cons]
    exact hc
  have hregion : regionCodeForNumber ⟨['9', '1'], c :: r⟩ = "IN" := by
    unfold regionCodeForNumber
    rw [if_pos rfl]
  rw [hvalid, hregion]
  simp

/-- C1, counterexample: the valid mobile number 9876543210 presented with a
`"+91"` prefix attached directly to the digits — the input is exactly
`"+919876543210"` — is not extracted at all, although the claim requires
`"+919876543210"` to be included: the pattern's leading `\b` cannot hold
before `'+'` at the start of the input, and after skipping the `'+'` the
twelve-digit run has no internal word boundary. -/
theorem c1_extract_plus91_attached_not_extracted :
    ¬ "+919876543210" ∈ (extract_contacts_from_html "+919876543210").2 := by
  have h : findPhones ("+919876543210".toList) = [] := by
    rw [findPhones,
      show "+919876543210".toList
        = ['+', '9', '1', '9', '8', '7', '6', '5', '4', '3', '2', '1', '0'] from rfl]
    repeat rw [findPhonesAux_neg (by decide)]
    exact findPhonesAux_nil _
  rw [extract_phones_eq, h]
  simp

/-- C1, amended: a valid ten-digit mobile number (first digit 6–9) whose
digit string does not itself begin with `"91"`, presented bare, or with a
`"+91"` or `"91"` prefix separated from the digits (here by a space or a
hyphen), is normalized to `"+91"` followed by the ten digits and included
exactly once — also when two such representations occur together.  (A prefix
attached directly to the digits is not recognized, and numbers whose digits
begin `"91"` are mangled by the `startswith("91")` check and dropped.) -/
theorem c1_extract_mobile_presentations (c : Char) (r : List Char)
    (hc : isMobileStart c = true) (hlen : r.length = 9) (hall : r.all isDigitCh = true)
    (h91 : ¬ (c :: r).take 2 = ['9', '1']) :
    (extract_contacts_from_html (c :: r).asString).2
        = [('+' :: '9' :: '1' :: c :: r).asString] ∧
    (extract_contacts_from_html ("+91 " ++ (c :: r).asString)).2
        = [('+' :: '9' :: '1' :: c :: r).asString] ∧
    (extract_contacts_from_html ("91-" ++ (c :: r).asString)).2
        = [('+' :: '9' :: '1' :: c :: r).asString] ∧
    (extract_contacts_from_html ((c :: r).asString ++ " +91 " ++ (c :: r).asString)).2
        = [('+' :: '9' :: '1' :: c :: r).asString] := by
  have hnorm := normalize_bare hc hlen hall h91
  have hval := validate_candidate hc hlen hall
  have hded1 : ([c :: r] : List (List Char)).dedup = [c :: r] := by simp
  have hded2 : ([c :: r, c :: r] : List (List Char)).dedup = [c :: r] := by
    rw [List.dedup_cons_of_mem (by simp), hded1]
  have hfil : ([c :: r] : List (List Char)).filterMap (fun ph =>
      if validate_indian_number (normalizePhone ph).asString
      then some (normalizePhone ph).asString else none)
      = [('+' :: '9' :: '1' :: c :: r).asString] := by
    rw [List.filterMap_cons]
    rw [hnorm]
    rw [if_pos hval]
    rfl
  refine ⟨?_, ?_, ?_, ?_⟩
  · rw [extract_phones_eq]
    have htl : ((c :: r).asString).toList = c :: r := rfl
    rw [htl, show findPhones (c :: r) = [c :: r] from scan_bare rfl hc hlen hall,
      hded1, hfil]
  · rw [extract_phones_eq]
    have htl : ("+91 " ++ (c :: r).asString).toList = '+' :: '9' :: '1' :: ' ' :: c :: r := rfl
    rw [htl, show findPhones ('+' :: '9' :: '1' :: ' ' :: c :: r) = [c :: r] from
      scan_plus91_sp rfl hc hlen hall, hded1, hfil]
  · rw [extract_phones_eq]
    have htl : ("91-" ++ (c :: r).asString).toList = '9' :: '1' :: '-' :: c :: r := rfl
    rw [htl, show findPhones ('9' :: '1' :: '-' :: c :: r) = [c :: r] from
      scan_91dash hc hlen hall, hded1, hfil]
  · rw [extract_phones_eq]
    have htl : ((c :: r).asString ++ " +91 " ++ (c :: r).asString).toList
        = (c :: r) ++ (' ' :: '+' :: '9' :: '1' :: ' ' :: c :: r) := by
      show ((c :: r) ++ (' ' :: '+' :: '9' :: '1' :: ' ' :: [])) ++ (c :: r)
          = (c :: r) ++ (' ' :: '+' :: '9' :: '1' :: ' ' :: c :: r)
      rw [List.append_assoc]
      rfl
    rw [htl, show findPhones ((c :: r) ++ (' ' :: '+' :: '9' :: '1' :: ' ' :: c :: r))
        = [c :: r, c :: r] from scan_double hc hlen hall, hded2, hfil]

/-- Witness for the amended C1 at the concrete number 9876543210. -/
theorem c1_extract_mobile_presentations_witness :
    (extract_contacts_from_html ('9' :: "876543210".toList).asString).2
        = [('+' :: '9' :: '1' :: '9' :: "876543210".toList).asString] ∧
    (extract_contacts_from_html ("+91 " ++ ('9' :: "876543210".toList).asString)).2
        = [('+' :: '9' :: '1' :: '9' :: "876543210".toList).asString] ∧
    (extract_contacts_from_html ("91-" ++ ('9' :: "876543210".toList).asString)).2
        = [('+' :: '9' :: '1' :: '9' :: "876543210".toList).asString] ∧
    (extract_contacts_from_html (('9' :: "876543210".toList).asString ++ " +91 " ++
        ('9' :: "876543210".toList).asString)).2
        = [('+' :: '9' :: '1' :: '9' :: "876543210".toList).asString] :=
  c1_extract_mobile_presentations '9' "876543210".toList
    (by decide) (by decide) (by decide) (by decide)

/-! ## The validator and totality of extraction (C5, C10) -/

theorem validate_catch (s : String) :
    (match validateTryBody s with
     | Except.error _ => false
     | Except.ok b => b) = validate_indian_number s := by
  unfold validateTryBody validate_indian_number
  cases hp : phonenumbersParse s.toList <;> rfl

/-- C5: `validate_indian_number` is exactly its `try`-block body with the
exception caught to `False`: any parse failure yields `false` (the exception
never escapes), and the result is `true` precisely when the parsed number is
structurally valid and its numbering-plan region resolves to India. -/
theorem c5_validate_indian_number_spec (s : String) :
    validate_indian_number s
        = (match validateTryBody s with
           | Except.error _ => false
           | Except.ok b => b) ∧
    (phonenumbersParse s.toList = Except.error () → validate_indian_number s = false) ∧
    (validate_indian_number s = true ↔
      ∃ n, phonenumbersParse s.toList = Except.ok n ∧
        phonenumbersIsValid n = true ∧ regionCodeForNumber n = "IN") := by
  refine ⟨(validate_catch s).symm, ?_, ?_⟩
  · intro hp
    unfold validate_indian_number
    rw [hp]
  · cases hp : phonenumbersParse s.toList with
    | error u =>
        constructor
        · intro h
          unfold validate_indian_number at h
          rw [hp] at h
          simp at h
        · rintro ⟨n, hn, -, -⟩
          exact absurd hn (by simp)
    | ok n =>
        constructor
        · intro h
          unfold validate_indian_number at h
          rw [hp] at h
          simp only [Bool.and_eq_true, decide_eq_true_eq] at h
          exact ⟨n, rfl, h.1, h.2⟩
        · rintro ⟨m, hm, hv, hr⟩
          simp only [Except.ok.injEq] at hm
          subst hm
          unfold validate_indian_number
          rw [hp]
          simp [hv, hr]

/-- Witness for C5 at the malformed input `"abc"`: parsing fails and the
validator returns `false`. -/
theorem c5_validate_indian_number_spec_witness :
    phonenumbersParse "abc".toList = Except.error () ∧
    validate_indian_number "abc" = false :=
  ⟨rfl, (c5_validate_indian_number_spec "abc").2.1 rfl⟩

theorem cleanPhonesE_ok (l : List (List Char)) (acc : List String) :
    cleanPhonesE l acc = Except.ok (l.foldl (fun acc ph =>
      let candidate := normalizePhone ph
      if validate_indian_number candidate.asString then acc ++ [candidate.asString]
      else acc) acc) := by
  induction l generalizing acc with
  | nil => rfl
  | cons a as ih =>
      simp only [cleanPhonesE, validate_catch, List.foldl_cons]
      rw [ih]

/-- C10: with the possible exceptions made explicit, extraction returns
normally with the (emails, phones) pair on every input string: the scans are
total and the phone-parse exception is caught inside
`validate_indian_number`. -/
theorem c10_extract_contacts_total (html : String) :
    extractContactsE html = Except.ok (extract_contacts_from_html html) := by
  unfold extractContactsE extract_contacts_from_html
  rw [cleanPhonesE_ok]

/-! ## The query builder (C9) -/

/-- C9: `build_query` applied to keyword `"dental lab"` and domains
`["linkedin.com"]` contains the literal substrings `site:linkedin.com`,
`"dental lab"` (quoted) and `"Mumbai"` (quoted); being a plain function of
its two arguments it is pure and deterministic. -/
theorem c9_build_query_contains :
    strContains (build_query "dental lab" ["linkedin.com"]) "site:linkedin.com" = true ∧
    strContains (build_query "dental lab" ["linkedin.com"]) "\"dental lab\"" = true ∧
    strContains (build_query "dental lab" ["linkedin.com"]) "\"Mumbai\"" = true := by
  refine ⟨?_, ?_, ?_⟩ <;> decide

/-! ## Email shape (C2) -/

/-- Split a list at its first `'@'`, if any. -/
def splitFirstAt : List Char → Option (List Char × List Char)
  | [] => none
  | c :: rest =>
      if c = '@' then some ([], rest)
      else
        match splitFirstAt rest with
        | some (loc, r) => some (c :: loc, r)
        | none => none

/-- Split a list at its last `'.'`, if any. -/
def splitLastDot : List Char → Option (List Char × List Char)
  | [] => none
  | c :: rest =>
      match splitLastDot rest with
      | some (d, t) => some (c :: d, t)
      | none => if c = '.' then some ([], rest) else none

/-- The syntactic email shape `local-part@domain.tld`: a nonempty local part
of local characters before the first `'@'`, then a nonempty domain of domain
characters, a dot, and a TLD of two or more letters. -/
def checkEmailShape (s : String) : Bool :=
  match splitFirstAt s.toList with
  | some (loc, rest) =>
      !loc.isEmpty && loc.all localCh &&
      (match splitLastDot rest with
       | some (d, t) => !d.isEmpty && d.all domainCh && t.all isAlphaCh && decide (2 ≤ t.length)
       | none => false)
  | none => false

theorem splitFirstAt_append {loc rest : List Char} (hloc : loc.all localCh = true) :
    splitFirstAt (loc ++ '@' :: rest) = some (loc, rest) := by
  induction loc with
  | nil => simp [splitFirstAt]
  | cons a as ih =>
      simp only [List.all_cons, Bool.and_eq_true] at hloc
      have ha : ¬ a = '@' := by
        intro hcon; subst hcon; exact absurd hloc.1 (by decide)
      simp only [List.cons_append, splitFirstAt, List.append_eq]
      rw [if_neg ha, ih hloc.2]

theorem splitLastDot_none {t : List Char} (ht : t.all isAlphaCh = true) :
    splitLastDot t = none := by
  induction t with
  | nil => rfl
  | cons a as ih =>
      simp only [List.all_cons, Bool.and_eq_true] at ht
      have ha : ¬ a = '.' := by
        intro hcon; subst hcon; exact absurd ht.1 (by decide)
      simp only [splitLastDot]
      rw [ih ht.2, if_neg ha]

theorem splitLastDot_append {d t : List Char} (ht : t.all isAlphaCh = true) :
    splitLastDot (d ++ '.' :: t) = some (d, t) := by
  induction d with
  | nil =>
      simp only [List.nil_append, splitLastDot]
      rw [splitLastDot_none ht]
      simp
  | cons a as ih =>
      simp only [List.cons_append, splitLastDot, List.append_eq]
      rw [ih]

theorem checkEmailShape_build {loc d t : List Char}
    (hlocne : ¬ loc = []) (hlocall : loc.all localCh = true)
    (hdne : ¬ d = []) (hdall : d.all domainCh = true)
    (htall : t.all isAlphaCh = true) (htlen : 2 ≤ t.length) :
    checkEmailShape (((loc ++ '@' :: d) ++ '.' :: t).asString) = true := by
  unfold checkEmailShape
  have htl : ((((loc ++ '@' :: d) ++ '.' :: t)).asString).toList
      = (loc ++ '@' :: d) ++ '.' :: t := rfl
  rw [htl, List.append_assoc, List.cons_append, splitFirstAt_append hlocall]
  show (!loc.isEmpty && loc.all localCh &&
      (match splitLastDot (d ++ '.' :: t) with
       | some (d, t) => !d.isEmpty && d.all domainCh && t.all isAlphaCh && decide (2 ≤ t.length)
       | none => false)) = true
  rw [splitLastDot_append htall]
  simp [hlocne, hlocall, hdne, hdall, htall, htlen, List.isEmpty_iff]

/-- Every successful email-pattern attempt yields a string of the syntactic
shape `local@domain.tld`. -/
theorem matchEmailAt_shape {l m rest : List Char} (h : matchEmailAt l = some (m, rest)) :
    checkEmailShape m.asString = true := by
  unfold matchEmailAt at h
  split at h
  · simp at h
  · split at h
    · rename_i r2 hdw
      split at h
      · rename_i d t lv hfd
        split at h
        · simp at h
        · rename_i hdne
          simp only [Option.some.injEq, Prod.mk.injEq] at h
          obtain ⟨hm, -⟩ := h
          subst hm
          obtain ⟨hD, htall, htlen⟩ := findDotSplit_spec hfd
          have hlocall : (l.takeWhile localCh).all localCh = true := List.all_takeWhile
          have hlocne : ¬ l.takeWhile localCh = [] := by assumption
          have hdomall : (r2.takeWhile domainCh).all domainCh = true := List.all_takeWhile
          rw [hD] at hdomall
          simp only [List.all_append, List.all_cons, Bool.and_eq_true] at hdomall
          exact checkEmailShape_build hlocne hlocall hdne hdomall.1.1 htall htlen
      · simp at h
    · simp at h

theorem findEmailsAux_pos {l m rest : List Char} (h : matchEmailAt l = some (m, rest)) :
    findEmailsAux l = m :: findEmailsAux rest := by
  conv_lhs => rw [findEmailsAux.eq_def]
  split
  · rename_i m' rest' h'
    rw [h'] at h
    simp only [Option.some.injEq, Prod.mk.injEq] at h
    obtain ⟨hm, hr⟩ := h
    subst hm; subst hr
    rfl
  · rename_i h'
    rw [h'] at h
    simp at h

theorem findEmailsAux_neg {c : Char} {r : List Char} (h : matchEmailAt (c :: r) = none) :
    findEmailsAux (c :: r) = findEmailsAux r := by
  conv_lhs => rw [findEmailsAux.eq_def]
  split
  · rename_i m' rest' h'
    rw [h'] at h
    simp at h
  · rfl

theorem findEmailsAux_nil : findEmailsAux [] = [] := by
  conv_lhs => rw [findEmailsAux.eq_def]
  split
  · rename_i m' rest' h'
    exact absurd h' (by simp [matchEmailAt])
  · rfl

/-- Every string produced by the email scan has the syntactic email shape. -/
theorem findEmailsAux_shape (l : List Char) :
    ∀ m ∈ findEmailsAux l, checkEmailShape m.asString = true := by
  induction l using findEmailsAux.induct with
  | case1 x m rest hmatch ih =>
      rw [findEmailsAux_pos hmatch]
      intro y hy
      rcases List.mem_cons.mp hy with hy | hy
      · subst hy
        exact matchEmailAt_shape hmatch
      · exact ih y hy
  | case2 h1 h2 =>
      rw [findEmailsAux_nil]
      intro y hy
      simp at hy
  | case3 hd r h1 h2 ih =>
      rw [findEmailsAux_neg h1]
      exact ih

/-! ## Orchestrator runs (C2, C6, C7, C8) -/

theorem orchLoop_spec (keyword : String) (visit : Nat → VisitResult) (total : Nat)
    (links : List String) (i : Nat) (st : OrchState) :
    orchLoop keyword visit total links i st =
      { rows := st.rows ++ (links.enumFrom i).filterMap (fun p =>
            match visit p.1 with
            | VisitResult.ok h => some (mkRecord keyword p.2 h)
            | _ => none)
        opened := st.opened ++ (links.enumFrom i).filterMap (fun p =>
            match visit p.1 with
            | VisitResult.failNewPage => none
            | _ => some p.1)
        closed := st.closed ++ (links.enumFrom i).filterMap (fun p =>
            match visit p.1 with
            | VisitResult.ok _ => some p.1
            | _ => none)
        progressCalls := st.progressCalls ++ (links.enumFrom i).filterMap (fun p =>
            match visit p.1 with
            | VisitResult.ok _ => some (p.1 + 1, total)
            | _ => none) } := by
  induction links generalizing i st with
  | nil => simp [orchLoop, List.enumFrom]
  | cons l rest ih =>
      simp only [orchLoop]
      rw [ih]
      cases hv : visit i <;>
        simp [orchStep, hv, List.enumFrom, List.filterMap_cons]

/-- C6: a per-link failure is never fatal and the records keep discovery
order: the orchestrator's rows are exactly the in-order filterMap of the
links — one record per successfully visited link, a gap (no placeholder) for
each link whose visit raised. -/
theorem c6_rows_in_discovery_order (keyword : String) (links : List String)
    (visit : Nat → VisitResult) :
    (scrape_social_media_visit keyword links visit).rows =
      (links.enumFrom 0).filterMap (fun p =>
        match visit p.1 with
        | VisitResult.ok h => some (mkRecord keyword p.2 h)
        | _ => none) := by
  unfold scrape_social_media_visit
  rw [orchLoop_spec]
  simp

/-- C7, counterexample: with a single link whose navigation (`goto`) raises,
the page context is opened and never closed — `await new_page.close()` sits
inside the `try` block after the failing call and there is no
`finally`/context manager, contradicting the claim that the page is closed
even when navigation fails. -/
theorem c7_page_leaked_on_goto_failure :
    0 ∈ (scrape_social_media_visit "k" ["https://x.com/a"]
        (fun _ => VisitResult.failGoto)).opened ∧
    ¬ 0 ∈ (scrape_social_media_visit "k" ["https://x.com/a"]
        (fun _ => VisitResult.failGoto)).closed := by
  constructor <;> decide

/-- C7, amended: a link's page context is closed before moving on only when
every step up to content capture succeeded; when `new_page` itself raises no
context is opened, and when a later step raises the opened context is left
open. -/
theorem c7_pages_closed_iff_content_captured (keyword : String) (links : List String)
    (visit : Nat → VisitResult) :
    (scrape_social_media_visit keyword links visit).opened =
      (links.enumFrom 0).filterMap (fun p =>
        match visit p.1 with
        | VisitResult.failNewPage => none
        | _ => some p.1) ∧
    (scrape_social_media_visit keyword links visit).closed =
      (links.enumFrom 0).filterMap (fun p =>
        match visit p.1 with
        | VisitResult.ok _ => some p.1
        | _ => none) := by
  unfold scrape_social_media_visit
  rw [orchLoop_spec]
  constructor <;> simp

/-- C8, counterexample: with two links of which the first fails, the progress
observer is invoked only once, with fraction 2/2 — no call with fraction 1/2
is made for the failed first link, because `progress.progress(i/len(links))`
sits inside the `try` block after the failing navigation. -/
theorem c8_no_progress_for_failed_link :
    (scrape_social_media_visit "k" ["u1", "u2"]
      (fun i => if i = 0 then VisitResult.failGoto else VisitResult.ok "h")).progressCalls
      = [(2, 2)] ∧
    ¬ (1, 2) ∈ (scrape_social_media_visit "k" ["u1", "u2"]
      (fun i => if i = 0 then VisitResult.failGoto else VisitResult.ok "h")).progressCalls := by
  constructor <;> decide

theorem mem_enumFrom_fst_lt {α : Type} {p : Nat × α} {n : Nat} {l : List α}
    (h : p ∈ l.enumFrom n) : p.1 < n + l.length := by
  induction l generalizing n with
  | nil => simp [List.enumFrom] at h
  | cons a as ih =>
      simp only [List.enumFrom] at h
      rcases List.mem_cons.mp h with h | h
      · subst h; simp
      · have := ih h
        simp only [List.length_cons]
        omega

/-- C8, amended: the progress observer is invoked exactly once per link whose
visit succeeded — a failed link reports nothing — with the pair (links
processed so far, total collected links); every reported fraction lies in
(0, 1], hence in [0, 1]. -/
theorem c8_progress_fraction_spec (keyword : String) (links : List String)
    (visit : Nat → VisitResult) :
    (scrape_social_media_visit keyword links visit).progressCalls =
      (links.enumFrom 0).filterMap (fun p =>
        match visit p.1 with
        | VisitResult.ok _ => some (p.1 + 1, links.length)
        | _ => none) ∧
    ∀ pr ∈ (scrape_social_media_visit keyword links visit).progressCalls,
      0 < pr.1 ∧ pr.1 ≤ pr.2 := by
  have hchar : (scrape_social_media_visit keyword links visit).progressCalls =
      (links.enumFrom 0).filterMap (fun p =>
        match visit p.1 with
        | VisitResult.ok _ => some (p.1 + 1, links.length)
        | _ => none) := by
    unfold scrape_social_media_visit
    rw [orchLoop_spec]
    simp
  refine ⟨hchar, ?_⟩
  intro pr hpr
  rw [hchar] at hpr
  obtain ⟨⟨j, link⟩, hmem, henc⟩ := List.mem_filterMap.mp hpr
  have hj : j < links.length := by
    have := mem_enumFrom_fst_lt hmem
    simpa using this
  cases hv : visit j with
  | failNewPage => rw [hv] at henc; simp at henc
  | failGoto => rw [hv] at henc; simp at henc
  | failWait => rw [hv] at henc; simp at henc
  | failContent => rw [hv] at henc; simp at henc
  | ok html =>
      rw [hv] at henc
      simp only [Option.some.injEq] at henc
      subst henc
      exact ⟨by simp, by simpa using hj⟩

/-- Witness for the amended C8: one link, one successful visit, one progress
call with fraction 1/1. -/
theorem c8_progress_fraction_spec_witness :
    (1, 1) ∈ (scrape_social_media_visit "k" ["u"]
      (fun _ => VisitResult.ok "h")).progressCalls ∧
    0 < (1 : Nat) ∧ (1 : Nat) ≤ 1 :=
  ⟨by decide,
   (c8_progress_fraction_spec "k" ["u"] (fun _ => VisitResult.ok "h")).2 (1, 1) (by decide)⟩

/-! ## The ExtractionRecord invariant (C2) -/

theorem regionCode_eq_IN {n : ParsedNumber} (h : regionCodeForNumber n = "IN") :
    n.countryCode = ['9', '1'] := by
  unfold regionCodeForNumber at h
  by_cases hcc : n.countryCode = ['9', '1']
  · exact hcc
  · rw [if_neg hcc] at h
    exact absurd h (by decide)

/-- A validated candidate that starts with `'+'` must carry the country code
`"91"`: any other leading code resolves to a region other than `"IN"`. -/
theorem validate_cons_plus {ds : List Char}
    (h : validate_indian_number (('+' :: ds).asString) = true) :
    ds.take 2 = ['9', '1'] := by
  unfold validate_indian_number at h
  have htl : (('+' :: ds).asString).toList = '+' :: ds := rfl
  rw [htl] at h
  by_cases hg : ds.all isDigitCh = true ∧ 4 ≤ ds.length ∧ ds.length ≤ 17
  · have hp : phonenumbersParse ('+' :: ds) = Except.ok ⟨ds.take 2, ds.drop 2⟩ := by
      show (if ds.all isDigitCh = true ∧ 4 ≤ ds.length ∧ ds.length ≤ 17
            then Except.ok (⟨ds.take 2, ds.drop 2⟩ : ParsedNumber)
            else Except.error ()) = Except.ok ⟨ds.take 2, ds.drop 2⟩
      rw [if_pos hg]
    rw [hp] at h
    simp only [Bool.and_eq_true, decide_eq_true_eq] at h
    exact regionCode_eq_IN h.2
  · have hp : phonenumbersParse ('+' :: ds) = Except.error () := by
      show (if ds.all isDigitCh = true ∧ 4 ≤ ds.length ∧ ds.length ≤ 17
            then Except.ok (⟨ds.take 2, ds.drop 2⟩ : ParsedNumber)
            else Except.error ()) = Except.error ()
      rw [if_neg hg]
    rw [hp] at h
    simp at h

/-- Everything the extractor's phone output contains has passed the validator
and carries the `"+91"` prefix. -/
theorem extract_phone_mem {html p : String}
    (hp : p ∈ (extract_contacts_from_html html).2) :
    p.toList.take 3 = ['+', '9', '1'] ∧ validate_indian_number p = true := by
  rw [extract_phones_eq] at hp
  obtain ⟨ph, hmem, henc⟩ := List.mem_filterMap.mp hp
  by_cases hv : validate_indian_number ((normalizePhone ph).asString) = true
  · rw [if_pos hv] at henc
    simp only [Option.some.injEq] at henc
    subst henc
    refine ⟨?_, hv⟩
    obtain ⟨ds, hds⟩ : ∃ ds, normalizePhone ph = '+' :: ds := ⟨_, rfl⟩
    rw [hds] at hv
    have h91 := validate_cons_plus hv
    rw [hds]
    show ('+' :: ds).take 3 = ['+', '9', '1']
    rw [List.take_succ_cons, h91]
  · rw [if_neg hv] at henc
    simp at henc

/-- Everything the extractor's email output contains has the syntactic email
shape. -/
theorem extract_email_mem {html e : String}
    (he : e ∈ (extract_contacts_from_html html).1) :
    checkEmailShape e = true := by
  rw [extract_emails_eq] at he
  obtain ⟨m, hm, rfl⟩ := List.mem_map.mp he
  exact findEmailsAux_shape _ m (List.mem_dedup.mp hm)

/-- C2: in every record the orchestrator produces, every phone begins with
`"+91"` and was accepted by `validate_indian_number`, and every email matches
the syntactic pattern local-part@domain.tld with a TLD of two or more
letters. -/
theorem c2_record_invariant (keyword : String) (links : List String)
    (visit : Nat → VisitResult) (rec : ExtractionRecord)
    (hrec : rec ∈ (scrape_social_media_visit keyword links visit).rows) :
    (∀ p ∈ rec.phones, p.toList.take 3 = ['+', '9', '1'] ∧
      validate_indian_number p = true) ∧
    (∀ e ∈ rec.emails, checkEmailShape e = true) := by
  unfold scrape_social_media_visit at hrec
  rw [orchLoop_spec] at hrec
  simp only [List.nil_append] at hrec
  obtain ⟨⟨j, link⟩, hmem, henc⟩ := List.mem_filterMap.mp hrec
  cases hv : visit j with
  | failNewPage => rw [hv] at henc; simp at henc
  | failGoto => rw [hv] at henc; simp at henc
  | failWait => rw [hv] at henc; simp at henc
  | failContent => rw [hv] at henc; simp at henc
  | ok html =>
      rw [hv] at henc
      simp only [Option.some.injEq] at henc
      subst henc
      constructor
      · intro p hp
        exact extract_phone_mem hp
      · intro e he
        exact extract_email_mem he

/-- Witness for C2: a one-link run whose page holds one email and one valid
mobile number. -/
theorem c2_record_invariant_witness :
    mkRecord "k" "u" "a@b.co 9876543210" ∈
      (scrape_social_media_visit "k" ["u"]
        (fun _ => VisitResult.ok "a@b.co 9876543210")).rows ∧
    ((∀ p ∈ (mkRecord "k" "u" "a@b.co 9876543210").phones,
        p.toList.take 3 = ['+', '9', '1'] ∧ validate_indian_number p = true) ∧
     (∀ e ∈ (mkRecord "k" "u" "a@b.co 9876543210").emails, checkEmailShape e = true)) := by
  have hmem : mkRecord "k" "u" "a@b.co 9876543210" ∈
      (scrape_social_media_visit "k" ["u"]
        (fun _ => VisitResult.ok "a@b.co 9876543210")).rows := by
    simp [scrape_social_media_visit, orchLoop, orchStep]
  exact ⟨hmem,
    c2_record_invariant "k" ["u"] (fun _ => VisitResult.ok "a@b.co 9876543210")
      (mkRecord "k" "u" "a@b.co 9876543210") hmem⟩

/-! ## The link collector (C3, C4) -/

theorem processResults_spec (results : List (Option String)) (doms : List String)
    (maxr : Nat) (links : List String)
    (hlen : links.length < maxr) (hnd : links.Nodup)
    (hdom : ∀ u ∈ links, ∃ d ∈ doms, strContains u d = true) :
    (processResults results doms maxr links).length ≤ maxr ∧
    (processResults results doms maxr links).Nodup ∧
    (∀ u ∈ processResults results doms maxr links, ∃ d ∈ doms, strContains u d = true) := by
  induction results generalizing links with
  | nil => exact ⟨Nat.le_of_lt hlen, hnd, hdom⟩
  | cons r rs ih =>
      cases r with
      | none =>
          simp only [processResults]
          exact ih links hlen hnd hdom
      | some u =>
          simp only [processResults]
          split
          · rename_i hcond
            obtain ⟨hne, hany, hnotmem⟩ := hcond
            have hnd2 : (links ++ [u]).Nodup := by
              apply List.Nodup.append hnd (List.nodup_singleton u)
              intro a ha hb
              rw [List.mem_singleton] at hb
              subst hb
              exact hnotmem ha
            have hdom2 : ∀ x ∈ links ++ [u], ∃ d ∈ doms, strContains x d = true := by
              intro x hx
              rcases List.mem_append.mp hx with hx | hx
              · exact hdom x hx
              · rw [List.mem_singleton] at hx
                subst hx
                obtain ⟨d, hd, hc⟩ := List.any_eq_true.mp hany
                exact ⟨d, hd, hc⟩
            split
            · rename_i hfull
              refine ⟨?_, hnd2, hdom2⟩
              simp only [List.length_append, List.length_cons, List.length_nil]
              omega
            · rename_i hroom
              refine ih (links ++ [u]) ?_ hnd2 hdom2
              have hl : (links ++ [u]).length = links.length + 1 := by simp
              omega
          · exact ih links hlen hnd hdom

theorem collectLoop_spec (pages : Nat → GPage) (doms : List String) (maxr : Nat) :
    ∀ fuel j links res,
      links.length ≤ maxr → links.Nodup →
      (∀ u ∈ links, ∃ d ∈ doms, strContains u d = true) →
      collectLoop pages doms maxr fuel j links = some res →
      res.length ≤ maxr ∧ res.Nodup ∧
      (∀ u ∈ res, ∃ d ∈ doms, strContains u d = true) := by
  intro fuel
  induction fuel with
  | zero =>
      intro j links res _ _ _ h
      simp [collectLoop] at h
  | succ fuel ih =>
      intro j links res hlen hnd hdom h
      simp only [collectLoop] at h
      split at h
      · rename_i hlt
        obtain ⟨h1, h2, h3⟩ :=
          processResults_spec (pages j).results doms maxr links hlt hnd hdom
        split at h
        · simp only [Option.some.injEq] at h
          subst h
          exact ⟨h1, h2, h3⟩
        · exact ih (j + 1) _ res h1 h2 h3 h
      · simp only [Option.some.injEq] at h
        subst h
        exact ⟨hlen, hnd, hdom⟩

/-- C3: a successful collector run with `max_results ≥ 1` returns at most
`max_results` links, with no duplicates, and every returned link contains at
least one selected domain substring. -/
theorem c3_collect_links_spec (pages : Nat → GPage) (doms : List String)
    (maxr fuel : Nat) (res : List String) (hmax : 1 ≤ maxr)
    (h : collectLinks pages doms maxr fuel = some res) :
    res.length ≤ maxr ∧ res.Nodup ∧
    (∀ u ∈ res, ∃ d ∈ doms, strContains u d = true) :=
  collectLoop_spec pages doms maxr fuel 0 [] res (by simp) List.nodup_nil (by simp) h

/-- Witness for C3: one results page with one LinkedIn link, cap 2. -/
theorem c3_collect_links_spec_witness :
    (["https://www.linkedin.com/in/x"] : List String).length ≤ 2 ∧
    (["https://www.linkedin.com/in/x"] : List String).Nodup ∧
    (∀ u ∈ (["https://www.linkedin.com/in/x"] : List String),
      ∃ d ∈ (["linkedin.com"] : List String), strContains u d = true) :=
  c3_collect_links_spec
    (fun _ => ⟨[some "https://www.linkedin.com/in/x"], false⟩)
    ["linkedin.com"] 2 1 ["https://www.linkedin.com/in/x"]
    (by decide) (by decide)

theorem collectLoop_fuel (pages : Nat → GPage) (doms : List String) (maxr : Nat) :
    ∀ k j links, (pages (j + k)).hasNext = false →
      ∃ res, collectLoop pages doms maxr (k + 1) j links = some res := by
  intro k
  induction k with
  | zero =>
      intro j links hnext
      simp only [collectLoop]
      split
      · rw [if_pos (Or.inl (by simpa using hnext))]
        exact ⟨_, rfl⟩
      · exact ⟨_, rfl⟩
  | succ k ih =>
      intro j links hnext
      simp only [collectLoop]
      split
      · by_cases hc : (pages j).hasNext = false ∨
            maxr ≤ (processResults (pages j).results doms maxr links).length
        · rw [if_pos hc]
          exact ⟨_, rfl⟩
        · rw [if_neg hc]
          exact ih (j + 1) _ (by rw [show j + 1 + k = j + (k + 1) from by omega]; exact hnext)
      · exact ⟨_, rfl⟩

/-- C4: the pagination loop terminates whenever the browser eventually
reports no next-page control: if page `n` has no next control, fuel `n + 1`
already suffices for the collector to return normally (with however many
links it holds, possibly zero). -/
theorem c4_collector_terminates (pages : Nat → GPage) (doms : List String)
    (maxr n : Nat) (hnext : (pages n).hasNext = false) :
    ∃ res, collectLinks pages doms maxr (n + 1) = some res :=
  collectLoop_fuel pages doms maxr n 0 [] (by simpa using hnext)

/-- Witness for C4: a single results page with no next control. -/
theorem c4_collector_terminates_witness :
    ∃ res, collectLinks (fun _ => ⟨[], false⟩) ([] : List String) 5 1 = some res :=
  c4_collector_terminates (fun _ => ⟨[], false⟩) [] 5 0 rfl
